import Mathlib

/-!
Verification of the coyote certificate orchestrator against its
natural-language specification.

Shallow embedding notes:
* Go maps keyed by strings are embedded as association lists with
  insertion-order semantics; the element/key sets are exactly those of the
  Go maps (whose iteration order is unspecified).
* Timestamps and durations are embedded as integers.
* Certificates, PEM bundles and thumbprints: a raw certificate is a
  `String`; a PEM chain is the list of raw certificates it encodes; the
  digest `cryptutil.Thumbprint` is an arbitrary parameter
  `tp : String → String` of the definitions that use it.
* Fallible Go code returns `Except`/`Option`; a nil-pointer dereference
  (a Go runtime panic) is made explicit as a dedicated constructor.
-/

namespace Coyote

/-! ## uniqueStrings (coyote.go, grouping variant)

`uniqueStrings(src ...[]string)` inserts every string of every list into a
Go map and returns its keys: the deduplicated union.  The embedding keeps
first-insertion order, which realises the same key set. -/

def insertUnique (acc : List String) (v : String) : List String :=
  if v ∈ acc then acc else acc ++ [v]

def uniqueStrings (src : List (List String)) : List String :=
  src.foldl (fun acc l => l.foldl insertUnique acc) []

theorem mem_insertUnique (acc : List String) (v x : String) :
    x ∈ insertUnique acc v ↔ x ∈ acc ∨ x = v := by
  unfold insertUnique
  by_cases h : v ∈ acc
  · simp only [if_pos h]
    constructor
    · exact Or.inl
    · rintro (hx | rfl)
      · exact hx
      · exact h
  · simp [if_neg h]

theorem nodup_insertUnique (acc : List String) (v : String) (h : acc.Nodup) :
    (insertUnique acc v).Nodup := by
  unfold insertUnique
  by_cases hv : v ∈ acc
  · simpa [if_pos hv]
  · simp only [if_neg hv]
    exact List.Nodup.append h (by simp) (by simpa using fun hx => hv hx)

theorem mem_foldl_insertUnique (l : List String) :
    ∀ (acc : List String) (x : String),
      x ∈ l.foldl insertUnique acc ↔ x ∈ acc ∨ x ∈ l := by
  induction l with
  | nil => simp
  | cons a t ih =>
    intro acc x
    simp only [List.foldl_cons, ih, mem_insertUnique, List.mem_cons]
    tauto

theorem nodup_foldl_insertUnique (l : List String) :
    ∀ acc : List String, acc.Nodup → (l.foldl insertUnique acc).Nodup := by
  induction l with
  | nil => simp
  | cons a t ih =>
    intro acc hacc
    exact ih _ (nodup_insertUnique _ _ hacc)

theorem mem_uniqueStrings (src : List (List String)) (x : String) :
    x ∈ uniqueStrings src ↔ ∃ l ∈ src, x ∈ l := by
  unfold uniqueStrings
  suffices h : ∀ acc : List String,
      x ∈ src.foldl (fun acc l => l.foldl insertUnique acc) acc ↔
        x ∈ acc ∨ ∃ l ∈ src, x ∈ l by
    simpa using h []
  induction src with
  | nil => simp
  | cons a t ih =>
    intro acc
    simp only [List.foldl_cons, ih, mem_foldl_insertUnique, List.mem_cons]
    constructor
    · rintro (((h | h) | h))
      · exact Or.inl h
      · exact Or.inr ⟨a, by simp [h]⟩
      · rcases h with ⟨l, hl, hx⟩
        exact Or.inr ⟨l, by simp [hl], hx⟩
    · rintro (h | ⟨l, hl, hx⟩)
      · exact Or.inl (Or.inl h)
      · rcases hl with rfl | hl
        · exact Or.inl (Or.inr hx)
        · exact Or.inr ⟨l, hl, hx⟩

theorem nodup_uniqueStrings (src : List (List String)) :
    (uniqueStrings src).Nodup := by
  unfold uniqueStrings
  suffices h : ∀ acc : List String, acc.Nodup →
      (src.foldl (fun acc l => l.foldl insertUnique acc) acc).Nodup by
    exact h [] (by simp)
  induction src with
  | nil => simp
  | cons a t ih =>
    intro acc hacc
    exact ih _ (nodup_foldl_insertUnique _ _ hacc)

/-! ## Store data model

`store.Certificate` as used by the issuance orchestrator and the sync
engine; `Thumbprint` is the digest of the leaf certificate's raw bytes
(data model of the spec; referenced by the sync code as
`cert.Thumbprint`). -/

structure StoreCertificate where
  domain : String
  alternativeNames : List String
  expires : Int
  certificateChain : List String
  privateKey : String
  thumbprint : String
deriving DecidableEq, Repr

/-! ## RenewExpiringCertificates (grouping variant)

```
threshold := time.Now().Add(before)
for _, cert := range certs {
  if threshold.After(cert.Expires) {
    domains := append(cert.AlternativeNames[:], cert.Domain)
    c.NewCertificate(domains)
  }
}
``` -/

def renewSelection (now before : Int) (certs : List StoreCertificate) :
    List StoreCertificate :=
  certs.filter (fun c => decide (c.expires < now + before))

def renewDomains (c : StoreCertificate) : List String :=
  c.alternativeNames ++ [c.domain]

def renewExpiringCalls (now before : Int) (certs : List StoreCertificate) :
    List (List String) :=
  (renewSelection now before certs).map renewDomains

/-! ## Authorization completion retry loop (Authorize, grouping variant)

```
for i := 1; ; i++ {
  err = c.client.CompleteAuthorize(ctx, challenge.AuthChallenge)
  if err == nil { break }
  if i >= authRetries { return err }
  time.Sleep(time.Duration(i*backoffMs) * time.Millisecond)
}
```

`attempt i` is the outcome of the i-th `CompleteAuthorize` call.  The loop
is embedded with explicit fuel `authRetries - i`; the result records the
number of attempts made, the sleep durations (in ms, in order), and the
final outcome. -/

def authRetries : Nat := 5

def backoffMs : Nat := 300

def retryLoop (attempt : Nat → Except String Unit) :
    Nat → Nat → Nat × List Nat × Except String Unit
  | i, fuel =>
    match attempt i with
    | Except.ok _ => (1, [], Except.ok ())
    | Except.error e =>
      match fuel with
      | 0 => (1, [], Except.error e)
      | Nat.succ f =>
        let r := retryLoop attempt (i + 1) f
        (r.1 + 1, i * backoffMs :: r.2.1, r.2.2)

def completeAuthorizeLoop (attempt : Nat → Except String Unit) :
    Nat × List Nat × Except String Unit :=
  retryLoop attempt 1 (authRetries - 1)

/-! ## Authorize (grouping variant)

`Authorize` calls `BeginAuthorize` and then runs the completion loop on
`challenge.AuthChallenge`.  `BeginAuthorize` returns a nil challenge (with
a nil error) when the domain needs no authorization; the field selection
`challenge.AuthChallenge` on that nil pointer is a Go runtime panic, made
explicit by `AuthOutcome.nilPanic`. -/

structure HTTPAuthChallenge where
  uri : String
  path : String
  response : String
deriving DecidableEq, Repr

inductive AuthOutcome where
  | ok
  | err (e : String)
  | nilPanic
deriving DecidableEq, Repr

def authorize (begun : Except String (Option HTTPAuthChallenge))
    (attempt : Nat → Except String Unit) : AuthOutcome :=
  match begun with
  | Except.error e => AuthOutcome.err e
  | Except.ok none => AuthOutcome.nilPanic
  | Except.ok (some _) =>
    match (completeAuthorizeLoop attempt).2.2 with
    | Except.ok _ => AuthOutcome.ok
    | Except.error e => AuthOutcome.err e

/-! ## Renewal loops

`Coyote.RenewLoop` (both variants in the source):

```
for {
  if err := c.RenewExpiringCertificates(before); err != nil {
    return logger.Errore(err)
  }
  time.Sleep(period)
}
```

The watch-command loop (cmd/certsWatch.go):

```
for {
  certs, err := coy.RenewExpiringCertificates(day * 7)
  if err == nil { err = certificateSync(certs) }
  if err != nil { logger.Errore(err) }
  time.Sleep(day)
}
```

Both are unbounded; they are embedded with fuel bounding the number of
iterations observed.  `renewLoop` returns `some e` when the loop
terminated by returning tick error `e`, and `none` when it was still
looping after `fuel` ticks.  `watchLoop` returns the accumulated log. -/

def renewLoop (tick : Nat → Except String Unit) : Nat → Nat → Option String
  | _, 0 => none
  | k, Nat.succ f =>
    match tick k with
    | Except.error e => some e
    | Except.ok _ => renewLoop tick (k + 1) f

def watchLoop (tick : Nat → Except String Unit) :
    Nat → Nat → List String → List String
  | _, 0, logs => logs
  | k, Nat.succ f, logs =>
    match tick k with
    | Except.error e => watchLoop tick (k + 1) f (logs ++ [e])
    | Except.ok _ => watchLoop tick (k + 1) f logs

/-! ## Challenge store (store.go, libkv backed)

The backend key-value store is an association list from full keys to raw
values.  `path` is `filepath.Join(prefix, components...)`, i.e. the
non-empty components joined by `/`.  The backend `Delete` is modelled as
unconditional removal of the key. -/

structure Challenge where
  key : String
  value : String
deriving DecidableEq, Repr

abbrev KV := List (String × String)

def kvGet (kv : KV) (k : String) : Option String :=
  match kv with
  | [] => none
  | (k', v) :: rest => if k' = k then some v else kvGet rest k

def kvPut (kv : KV) (k v : String) : KV :=
  match kv with
  | [] => [(k, v)]
  | (k', v') :: rest => if k' = k then (k, v) :: rest else (k', v') :: kvPut rest k v

def kvDelete (kv : KV) (k : String) : KV :=
  match kv with
  | [] => []
  | (k', v') :: rest => if k' = k then kvDelete rest k else (k', v') :: kvDelete rest k

def pathJoin (components : List String) : String :=
  String.intercalate "/" (components.filter (fun c => c ≠ ""))

def challengesPath : String := "challenges"

/-- `PutChallenge`: rejects empty key/value, then writes the raw response
text at `path(prefix, "challenges", key)`.  `sp` is the store prefix. -/
def putChallenge (sp : String) (kv : KV) (ch : Challenge) : Except String KV :=
  if ch.key = "" then Except.error "must specify key for challenge"
  else if ch.value = "" then Except.error "must specify value for challenge"
  else Except.ok (kvPut kv (pathJoin [sp, challengesPath, ch.key]) ch.value)

/-- `GetChallenge`: reads `path(prefix, "challenges", key)`; a backend miss
is the absent-value result `none`. -/
def getChallenge (sp : String) (kv : KV) (key : String) : Option Challenge :=
  match kvGet kv (pathJoin [sp, challengesPath, key]) with
  | none => none
  | some v => some { key := key, value := v }

/-- `DeleteChallenge`: rejects an empty key, then calls the backend delete
on the bare `key` — not on `path(prefix, "challenges", key)` — exactly as
the source does, which is why the store prefix parameter goes unused. -/
def deleteChallenge (_sp : String) (kv : KV) (key : String) : Except String KV :=
  if key = "" then Except.error "must specify key"
  else Except.ok (kvDelete kv key)

/-! ## Challenge-serving HTTP handler (server.go)

The handler matches the request path against
`^/<pathPrefix>/([a-zA-Z0-9_-]+)$` (embedded for a literal pattern
string), looks the token up, and writes `challenge.Value`.  Only the error
return of `GetChallenge` is checked: a store miss yields a nil challenge
and `challenge.Value` is a nil-pointer dereference. -/

def tokenChar (c : Char) : Bool :=
  c.isAlphanum || c = '_' || c = '-'

/-- Strip a literal leading sequence, returning the remainder. -/
def stripLead (pre s : List Char) : Option (List Char) :=
  match pre, s with
  | [], rest => some rest
  | _ :: _, [] => none
  | p :: ps, c :: cs => if c = p then stripLead ps cs else none

/-- The anchored pattern `^/<pat>/([a-zA-Z0-9_-]+)$` for a literal `pat`:
the path must start with `/<pat>/` and the remainder must be a non-empty
token of `[a-zA-Z0-9_-]` characters (which in particular excludes any
further `/`). -/
def matchChallengePath (pat : String) (path : String) : Option String :=
  match stripLead ("/" ++ pat ++ "/").toList path.toList with
  | none => none
  | some tok =>
    if tok ≠ [] ∧ tok.all tokenChar then some (String.mk tok) else none

inductive HTTPResponse where
  | notFound
  | body (s : String)
deriving DecidableEq, Repr

inductive HandlerResult where
  | respond (r : HTTPResponse)
  | panics
deriving DecidableEq, Repr

def challengeHandler (pat sp : String) (kv : KV) (path : String) :
    HandlerResult × KV :=
  match matchChallengePath pat path with
  | none => (HandlerResult.respond HTTPResponse.notFound, kv)
  | some key =>
    match getChallenge sp kv key with
    | none => (HandlerResult.panics, kv)
    | some ch =>
      match deleteChallenge sp kv key with
      | Except.error _ => (HandlerResult.respond (HTTPResponse.body ch.value), kv)
      | Except.ok kv' => (HandlerResult.respond (HTTPResponse.body ch.value), kv')

/-! ## Domain grouping (NewCertificate, grouping variant)

```
groupedDomains := make(map[string][]string)
for _, d := range domains {
  ... Authorize(d) ...
  reg, err := publicsuffix.EffectiveTLDPlusOne(d)
  ...
  if reg == d {
    if _, ok := groupedDomains[reg]; !ok { groupedDomains[reg] = []string{} }
  } else {
    groupedDomains[reg] = append(groupedDomains[reg], d)
  }
}
```

The map is embedded as an association list in insertion order;
`EffectiveTLDPlusOne` is the external publicsuffix collaborator, a
parameter `etld` of the grouping function. -/

abbrev GroupMap := List (String × List String)

def mapLookup (m : GroupMap) (k : String) : Option (List String) :=
  match m with
  | [] => none
  | (k', v) :: rest => if k' = k then some v else mapLookup rest k

/-- The `reg == d` branch: `groupedDomains[reg] = []string{}` only when the
key is absent. -/
def mapEnsure (m : GroupMap) (k : String) : GroupMap :=
  match m with
  | [] => [(k, [])]
  | (k', v) :: rest => if k' = k then (k', v) :: rest else (k', v) :: mapEnsure rest k

/-- The other branch: `groupedDomains[reg] = append(groupedDomains[reg], d)`
(append to the zero value when the key is absent). -/
def mapAppend (m : GroupMap) (k : String) (d : String) : GroupMap :=
  match m with
  | [] => [(k, [d])]
  | (k', v) :: rest =>
    if k' = k then (k', v ++ [d]) :: rest else (k', v) :: mapAppend rest k d

def groupDomains (etld : String → Option String) :
    List String → GroupMap → Option GroupMap
  | [], m => some m
  | d :: rest, m =>
    match etld d with
    | none => none
    | some reg =>
      if reg = d then groupDomains etld rest (mapEnsure m reg)
      else groupDomains etld rest (mapAppend m reg d)

/-- Split a character list on `'.'` into labels. -/
def splitDots : List Char → List (List Char)
  | [] => [[]]
  | c :: rest =>
    if c = '.' then [] :: splitDots rest
    else
      match splitDots rest with
      | [] => [[c]]
      | g :: gs => (c :: g) :: gs

/-- `publicsuffix.EffectiveTLDPlusOne` restricted to the public suffix
`com`: the registrable domain is the last label before `com` plus `com`.
This concrete instance of the collaborator drives the spec's scenario. -/
def etldPlusOneCom (d : String) : Option String :=
  match (splitDots d.toList).reverse with
  | tld :: lbl :: _ =>
    if tld = "com".toList ∧ lbl ≠ [] then some (String.mk (lbl ++ '.' :: tld))
    else none
  | _ => none

theorem mapLookup_mapEnsure_self (m : GroupMap) (k : String) :
    mapLookup (mapEnsure m k) k = some ((mapLookup m k).getD []) := by
  induction m with
  | nil => simp [mapEnsure, mapLookup]
  | cons p rest ih =>
    obtain ⟨k', v⟩ := p
    by_cases h : k' = k
    · subst h
      simp [mapEnsure, mapLookup]
    · simp [mapEnsure, mapLookup, h, ih]

theorem mapLookup_mapEnsure_ne (m : GroupMap) (k k' : String) (h : k' ≠ k) :
    mapLookup (mapEnsure m k) k' = mapLookup m k' := by
  induction m with
  | nil => simp [mapEnsure, mapLookup, Ne.symm h]
  | cons p rest ih =>
    obtain ⟨k₀, v⟩ := p
    by_cases h0 : k₀ = k
    · subst h0
      simp [mapEnsure, mapLookup]
    · by_cases h1 : k₀ = k'
      · subst h1
        simp [mapEnsure, mapLookup, h0]
      · simp [mapEnsure, mapLookup, h0, h1, ih]

theorem mapLookup_mapAppend_self (m : GroupMap) (k d : String) :
    mapLookup (mapAppend m k d) k = some ((mapLookup m k).getD [] ++ [d]) := by
  induction m with
  | nil => simp [mapAppend, mapLookup]
  | cons p rest ih =>
    obtain ⟨k', v⟩ := p
    by_cases h : k' = k
    · subst h
      simp [mapAppend, mapLookup]
    · simp [mapAppend, mapLookup, h, ih]

theorem mapLookup_mapAppend_ne (m : GroupMap) (k d k' : String) (h : k' ≠ k) :
    mapLookup (mapAppend m k d) k' = mapLookup m k' := by
  induction m with
  | nil => simp [mapAppend, mapLookup, Ne.symm h]
  | cons p rest ih =>
    obtain ⟨k₀, v⟩ := p
    by_cases h0 : k₀ = k
    · subst h0
      simp [mapAppend, mapLookup, Ne.symm h]
    · by_cases h1 : k₀ = k'
      · subst h1
        simp [mapAppend, mapLookup, h0]
      · simp [mapAppend, mapLookup, h0, h1, ih]

theorem mapLookup_isSome_iff (m : GroupMap) (k : String) :
    (mapLookup m k).isSome ↔ k ∈ m.map Prod.fst := by
  induction m with
  | nil => simp [mapLookup]
  | cons p rest ih =>
    obtain ⟨k', v⟩ := p
    by_cases h : k' = k
    · subst h
      simp [mapLookup]
    · simp [mapLookup, h, ih, Ne.symm h]

theorem keys_mapEnsure (m : GroupMap) (k : String) :
    (mapEnsure m k).map Prod.fst =
      if (mapLookup m k).isSome then m.map Prod.fst else m.map Prod.fst ++ [k] := by
  induction m with
  | nil => simp [mapEnsure, mapLookup]
  | cons p rest ih =>
    obtain ⟨k', v⟩ := p
    by_cases h : k' = k
    · subst h
      simp [mapEnsure, mapLookup]
    · by_cases h2 : (mapLookup rest k).isSome
      · simp [mapEnsure, mapLookup, h, ih, h2]
      · simp [mapEnsure, mapLookup, h, ih, h2]

theorem keys_mapAppend (m : GroupMap) (k d : String) :
    (mapAppend m k d).map Prod.fst =
      if (mapLookup m k).isSome then m.map Prod.fst else m.map Prod.fst ++ [k] := by
  induction m with
  | nil => simp [mapAppend, mapLookup]
  | cons p rest ih =>
    obtain ⟨k', v⟩ := p
    by_cases h : k' = k
    · subst h
      simp [mapAppend, mapLookup]
    · by_cases h2 : (mapLookup rest k).isSome
      · simp [mapAppend, mapLookup, h, ih, h2]
      · simp [mapAppend, mapLookup, h, ih, h2]

theorem nodup_keys_mapEnsure (m : GroupMap) (k : String)
    (h : (m.map Prod.fst).Nodup) : ((mapEnsure m k).map Prod.fst).Nodup := by
  rw [keys_mapEnsure]
  by_cases h2 : (mapLookup m k).isSome
  · simpa [h2]
  · have hk : k ∉ m.map Prod.fst := by
      rw [← mapLookup_isSome_iff]
      simpa using h2
    simp only [if_neg h2]
    exact List.Nodup.append h (by simp) (by simpa using fun hx => hk hx)

theorem nodup_keys_mapAppend (m : GroupMap) (k d : String)
    (h : (m.map Prod.fst).Nodup) : ((mapAppend m k d).map Prod.fst).Nodup := by
  rw [keys_mapAppend]
  by_cases h2 : (mapLookup m k).isSome
  · simpa [h2]
  · have hk : k ∉ m.map Prod.fst := by
      rw [← mapLookup_isSome_iff]
      simpa using h2
    simp only [if_neg h2]
    exact List.Nodup.append h (by simp) (by simpa using fun hx => hk hx)

/-! ## External reconciler (sync package, thumbprint-gated variant)

`Host` is the external system's view; its PEM bundle is embedded as the
list of raw certificates it encodes, so `DecodeCertificates` fails exactly
when no certificate data is present.  `tp` is the `cryptutil.Thumbprint`
digest. The external system is an association list keyed by domain, with
`PutHost` an upsert; runs additionally record the list of upserted hosts
and an optional error, so that partial effects of failed runs stay
observable. -/

structure Host where
  domain : String
  certificatePEM : List String
  privateKeyPEM : String
deriving DecidableEq, Repr

abbrev Ext := List (String × Host)

def getHost (ext : Ext) (d : String) : Option Host :=
  match ext with
  | [] => none
  | (k, h) :: rest => if k = d then some h else getHost rest d

def hostUpsert (ext : Ext) (d : String) (h : Host) : Ext :=
  match ext with
  | [] => [(d, h)]
  | (k, h') :: rest =>
    if k = d then (d, h) :: rest else (k, h') :: hostUpsert rest d h

def decodeCertificates (h : Host) : Except String (List String) :=
  if h.certificatePEM.isEmpty then Except.error "no certificate data found"
  else Except.ok h.certificatePEM

/-- The host pushed for name `d`: the certificate's chain and private key. -/
def pushHost (cert : StoreCertificate) (d : String) : Host :=
  { domain := d
    certificatePEM := cert.certificateChain
    privateKeyPEM := cert.privateKey }

/-- `getAllNames`: the certificate's Domain followed by its
AlternativeNames. -/
def getAllNames (cert : StoreCertificate) : List String :=
  cert.domain :: cert.alternativeNames

/-- The name loop of `sync.Certificate`.  For each name: `GetHost`; if an
entry exists, decode its bundle and thumbprint the leaf; on a thumbprint
match the Go code does `return nil`, ending the whole call; otherwise the
entry is upserted and the loop continues.  The result is the final
external state, the upserts performed, and an optional error. -/
def syncNames (tp : String → String) (cert : StoreCertificate) :
    List String → Ext → List Host → Ext × List Host × Option String
  | [], ext, ups => (ext, ups, none)
  | d :: rest, ext, ups =>
    match getHost ext d with
    | some h =>
      match decodeCertificates h with
      | Except.error e => (ext, ups, some e)
      | Except.ok bundle =>
        if tp (bundle.headD "") = cert.thumbprint then
          (ext, ups, none)
        else
          syncNames tp cert rest (hostUpsert ext d (pushHost cert d))
            (ups ++ [pushHost cert d])
    | none =>
      syncNames tp cert rest (hostUpsert ext d (pushHost cert d))
        (ups ++ [pushHost cert d])

/-- `sync.Certificate cert external`. -/
def syncCertificate (tp : String → String) (cert : StoreCertificate)
    (ext : Ext) : Ext × List Host × Option String :=
  syncNames tp cert (getAllNames cert) ext []

/-- `sync.Certificates certs external`: each certificate in turn; the
first error aborts. -/
def syncCertificates (tp : String → String) :
    List StoreCertificate → Ext → List Host → Ext × List Host × Option String
  | [], ext, ups => (ext, ups, none)
  | c :: rest, ext, ups =>
    match syncNames tp c (getAllNames c) ext ups with
    | (ext', ups', some e) => (ext', ups', some e)
    | (ext', ups', none) => syncCertificates tp rest ext' ups'

theorem getHost_hostUpsert_self (ext : Ext) (d : String) (h : Host) :
    getHost (hostUpsert ext d h) d = some h := by
  induction ext with
  | nil => simp [hostUpsert, getHost]
  | cons p rest ih =>
    obtain ⟨k, h'⟩ := p
    by_cases hk : k = d
    · subst hk
      simp [hostUpsert, getHost]
    · simp [hostUpsert, getHost, hk, ih]

theorem getHost_hostUpsert_ne (ext : Ext) (d k : String) (h : Host)
    (hne : k ≠ d) : getHost (hostUpsert ext d h) k = getHost ext k := by
  induction ext with
  | nil => simp [hostUpsert, getHost, Ne.symm hne]
  | cons p rest ih =>
    obtain ⟨k0, h'⟩ := p
    by_cases hk : k0 = d
    · subst hk
      simp [hostUpsert, getHost, Ne.symm hne, hne]
    · by_cases hk2 : k0 = k
      · subst hk2
        simp [hostUpsert, getHost, hk]
      · simp [hostUpsert, getHost, hk, hk2, ih]

/-- Frame property: keys outside the processed name list are untouched,
whatever the outcome. -/
theorem syncNames_frame (tp : String → String) (cert : StoreCertificate) :
    ∀ (names : List String) (ext : Ext) (ups : List Host) (k : String),
      k ∉ names →
      getHost (syncNames tp cert names ext ups).1 k = getHost ext k := by
  intro names
  induction names with
  | nil => intro ext ups k _; rfl
  | cons d rest ih =>
    intro ext ups k hk
    have hkd : k ≠ d := by
      intro hkd
      exact hk (by simp [hkd])
    have hkrest : k ∉ rest := fun hr => hk (by simp [hr])
    cases hg : getHost ext d with
    | none =>
      simp only [syncNames, hg]
      rw [ih _ _ _ hkrest, getHost_hostUpsert_ne _ _ _ _ hkd]
    | some h =>
      cases hdec : decodeCertificates h with
      | error e => simp only [syncNames, hg, hdec]
      | ok bundle =>
        by_cases htp : tp (bundle.headD "") = cert.thumbprint
        · simp only [syncNames, hg, hdec, if_pos htp]
        · simp only [syncNames, hg, hdec, if_neg htp]
          rw [ih _ _ _ hkrest, getHost_hostUpsert_ne _ _ _ _ hkd]

/-- Every key is either untouched or holds the pushed host for that key
afterwards. -/
theorem syncNames_content (tp : String → String) (cert : StoreCertificate) :
    ∀ (names : List String) (ext : Ext) (ups : List Host) (k : String),
      getHost (syncNames tp cert names ext ups).1 k = getHost ext k ∨
      getHost (syncNames tp cert names ext ups).1 k = some (pushHost cert k) := by
  intro names
  induction names with
  | nil => intro ext ups k; exact Or.inl rfl
  | cons d rest ih =>
    intro ext ups k
    cases hg : getHost ext d with
    | none =>
      simp only [syncNames, hg]
      by_cases hkd : k = d
      · subst hkd
        rcases ih (hostUpsert ext k (pushHost cert k)) (ups ++ [pushHost cert k]) k with h | h
        · rw [getHost_hostUpsert_self] at h
          exact Or.inr h
        · exact Or.inr h
      · rcases ih (hostUpsert ext d (pushHost cert d)) (ups ++ [pushHost cert d]) k with h | h
        · rw [getHost_hostUpsert_ne _ _ _ _ hkd] at h
          exact Or.inl h
        · exact Or.inr h
    | some h =>
      cases hdec : decodeCertificates h with
      | error e =>
        simp only [syncNames, hg, hdec]
        exact Or.inl trivial
      | ok bundle =>
        by_cases htp : tp (bundle.headD "") = cert.thumbprint
        · simp only [syncNames, hg, hdec, if_pos htp]
          exact Or.inl trivial
        · simp only [syncNames, hg, hdec, if_neg htp]
          by_cases hkd : k = d
          · subst hkd
            rcases ih (hostUpsert ext k (pushHost cert k)) (ups ++ [pushHost cert k]) k with h2 | h2
            · rw [getHost_hostUpsert_self] at h2
              exact Or.inr h2
            · exact Or.inr h2
          · rcases ih (hostUpsert ext d (pushHost cert d)) (ups ++ [pushHost cert d]) k with h2 | h2
            · rw [getHost_hostUpsert_ne _ _ _ _ hkd] at h2
              exact Or.inl h2
            · exact Or.inr h2

/-- While an external entry for `name` decodes to a bundle whose leaf
thumbprint equals the certificate's, the run never upserts a host for
`name` (any upsert in the result was already in the accumulator or targets
another domain). -/
theorem syncNames_no_upsert_of_match (tp : String → String)
    (cert : StoreCertificate) (name : String) (h : Host) (bundle : List String)
    (hdec : decodeCertificates h = Except.ok bundle)
    (htp : tp (bundle.headD "") = cert.thumbprint) :
    ∀ (names : List String) (ext : Ext) (ups : List Host),
      getHost ext name = some h →
      ∀ u ∈ (syncNames tp cert names ext ups).2.1, u ∈ ups ∨ u.domain ≠ name := by
  intro names
  induction names with
  | nil => intro ext ups _ u hu; exact Or.inl hu
  | cons d rest ih =>
    intro ext ups hname u hu
    by_cases hd : d = name
    · subst hd
      simp only [syncNames, hname, hdec, if_pos htp] at hu
      exact Or.inl hu
    · cases hg : getHost ext d with
      | none =>
        simp only [syncNames, hg] at hu
        have hname' : getHost (hostUpsert ext d (pushHost cert d)) name = some h := by
          rw [getHost_hostUpsert_ne _ _ _ _ (Ne.symm hd)]
          exact hname
        rcases ih _ _ hname' u hu with h2 | h2
        · rcases List.mem_append.mp h2 with h3 | h3
          · exact Or.inl h3
          · have : u = pushHost cert d := by simpa using h3
            subst this
            exact Or.inr hd
        · exact Or.inr h2
      | some h0 =>
        cases hdec0 : decodeCertificates h0 with
        | error e =>
          simp only [syncNames, hg, hdec0] at hu
          exact Or.inl hu
        | ok bundle0 =>
          by_cases htp0 : tp (bundle0.headD "") = cert.thumbprint
          · simp only [syncNames, hg, hdec0, if_pos htp0] at hu
            exact Or.inl hu
          · simp only [syncNames, hg, hdec0, if_neg htp0] at hu
            have hname' : getHost (hostUpsert ext d (pushHost cert d)) name = some h := by
              rw [getHost_hostUpsert_ne _ _ _ _ (Ne.symm hd)]
              exact hname
            rcases ih _ _ hname' u hu with h2 | h2
            · rcases List.mem_append.mp h2 with h3 | h3
              · exact Or.inl h3
              · have : u = pushHost cert d := by simpa using h3
                subst this
                exact Or.inr hd
            · exact Or.inr h2

/-- A thumbprint match behind the first name short-circuits the whole
call: the Go `return nil`. -/
theorem syncNames_match_head (tp : String → String) (cert : StoreCertificate)
    (d : String) (rest : List String) (ext : Ext) (ups : List Host)
    (h : Host) (bundle : List String)
    (hg : getHost ext d = some h)
    (hdec : decodeCertificates h = Except.ok bundle)
    (htp : tp (bundle.headD "") = cert.thumbprint) :
    syncNames tp cert (d :: rest) ext ups = (ext, ups, none) := by
  simp only [syncNames, hg, hdec, if_pos htp]

/-- After a successful run over `d :: rest`, the entry at `d` decodes to a
bundle whose leaf thumbprint equals the certificate's (given the data
model invariant linking the stored chain and thumbprint). -/
theorem syncNames_post_head_match (tp : String → String)
    (cert : StoreCertificate)
    (hne : cert.certificateChain ≠ [])
    (htp : tp (cert.certificateChain.headD "") = cert.thumbprint)
    (d : String) (rest : List String) (ext ext' : Ext) (ups ups' : List Host)
    (hrun : syncNames tp cert (d :: rest) ext ups = (ext', ups', none)) :
    ∃ h bundle, getHost ext' d = some h ∧
      decodeCertificates h = Except.ok bundle ∧
      tp (bundle.headD "") = cert.thumbprint := by
  have hpushdec : decodeCertificates (pushHost cert d) =
      Except.ok cert.certificateChain := by
    simp [decodeCertificates, pushHost, hne]
  cases hg : getHost ext d with
  | none =>
    simp only [syncNames, hg] at hrun
    have hcontent := syncNames_content tp cert rest
      (hostUpsert ext d (pushHost cert d)) (ups ++ [pushHost cert d]) d
    rw [hrun] at hcontent
    have hup : getHost (hostUpsert ext d (pushHost cert d)) d =
        some (pushHost cert d) := getHost_hostUpsert_self _ _ _
    rcases hcontent with h2 | h2
    · rw [hup] at h2
      exact ⟨pushHost cert d, cert.certificateChain, h2, hpushdec, htp⟩
    · exact ⟨pushHost cert d, cert.certificateChain, h2, hpushdec, htp⟩
  | some h0 =>
    cases hdec0 : decodeCertificates h0 with
    | error e =>
      simp only [syncNames, hg, hdec0, Prod.mk.injEq] at hrun
      exact absurd hrun.2.2 (by simp)
    | ok bundle0 =>
      by_cases htp0 : tp (bundle0.headD "") = cert.thumbprint
      · simp only [syncNames, hg, hdec0, if_pos htp0, Prod.mk.injEq] at hrun
        refine ⟨h0, bundle0, ?_, hdec0, htp0⟩
        rw [← hrun.1]
        exact hg
      · simp only [syncNames, hg, hdec0, if_neg htp0] at hrun
        have hcontent := syncNames_content tp cert rest
          (hostUpsert ext d (pushHost cert d)) (ups ++ [pushHost cert d]) d
        rw [hrun] at hcontent
        have hup : getHost (hostUpsert ext d (pushHost cert d)) d =
            some (pushHost cert d) := getHost_hostUpsert_self _ _ _
        rcases hcontent with h2 | h2
        · rw [hup] at h2
          exact ⟨pushHost cert d, cert.certificateChain, h2, hpushdec, htp⟩
        · exact ⟨pushHost cert d, cert.certificateChain, h2, hpushdec, htp⟩

/-- Frame property lifted to `syncCertificates`: keys outside every
certificate's name list keep their value. -/
theorem syncCertificates_frame (tp : String → String) :
    ∀ (certs : List StoreCertificate) (ext : Ext) (ups : List Host)
      (k : String),
      (∀ c ∈ certs, k ∉ getAllNames c) →
      getHost (syncCertificates tp certs ext ups).1 k = getHost ext k := by
  intro certs
  induction certs with
  | nil => intro ext ups k _; rfl
  | cons c rest ih =>
    intro ext ups k hk
    have hkc : k ∉ getAllNames c := hk c (by simp)
    have hkrest : ∀ c' ∈ rest, k ∉ getAllNames c' :=
      fun c' hc' => hk c' (by simp [hc'])
    cases hrun : syncNames tp c (getAllNames c) ext ups with
    | mk ext' rest2 =>
      obtain ⟨ups', e?⟩ := rest2
      have hframe : getHost ext' k = getHost ext k := by
        have := syncNames_frame tp c (getAllNames c) ext ups k hkc
        rw [hrun] at this
        exact this
      cases e? with
      | none =>
        simp only [syncCertificates, hrun]
        rw [ih ext' ups' k hkrest, hframe]
      | some e =>
        simp only [syncCertificates, hrun]
        exact hframe

/-- Re-running a single certificate against the state a successful run
left behind performs no upserts and leaves the state unchanged. -/
theorem syncNames_rerun (tp : String → String) (cert : StoreCertificate)
    (hne : cert.certificateChain ≠ [])
    (htp : tp (cert.certificateChain.headD "") = cert.thumbprint)
    (ext ext' st : Ext) (ups ups' ups2 : List Host)
    (hrun : syncNames tp cert (getAllNames cert) ext ups = (ext', ups', none))
    (hst : getHost st cert.domain = getHost ext' cert.domain) :
    syncNames tp cert (getAllNames cert) st ups2 = (st, ups2, none) := by
  obtain ⟨h, bundle, hget, hdec, hmatch⟩ :=
    syncNames_post_head_match tp cert hne htp cert.domain
      cert.alternativeNames ext ext' ups ups' hrun
  exact syncNames_match_head tp cert cert.domain cert.alternativeNames st ups2
    h bundle (hst.trans hget) hdec hmatch

/-- Convergence: re-running `sync.Certificates` against the state a fully
successful run produced performs zero upserts and changes nothing, given
the data-model invariants (each stored chain is non-empty and its leaf
thumbprint is the stored `Thumbprint`; certificates for distinct
registrable domains cover disjoint name sets). -/
theorem syncCertificates_rerun (tp : String → String) :
    ∀ (certs : List StoreCertificate) (ext ext' : Ext)
      (ups ups' ups2 : List Host),
      (∀ c ∈ certs, c.certificateChain ≠ [] ∧
        tp (c.certificateChain.headD "") = c.thumbprint) →
      List.Pairwise (fun a b => ∀ n ∈ getAllNames a, n ∉ getAllNames b) certs →
      syncCertificates tp certs ext ups = (ext', ups', none) →
      syncCertificates tp certs ext' ups2 = (ext', ups2, none) := by
  intro certs
  induction certs with
  | nil =>
    intro ext ext' ups ups' ups2 _ _ _
    rfl
  | cons c rest ih =>
    intro ext ext' ups ups' ups2 hinv hpair hrun
    cases hrun1 : syncNames tp c (getAllNames c) ext ups with
    | mk ext1 r2 =>
      obtain ⟨ups1, e?⟩ := r2
      cases e? with
      | some e =>
        simp only [syncCertificates, hrun1, Prod.mk.injEq] at hrun
        exact absurd hrun.2.2 (by simp)
      | none =>
        simp only [syncCertificates, hrun1] at hrun
        have hc := hinv c (by simp)
        have hdomain_mem : c.domain ∈ getAllNames c := by simp [getAllNames]
        have hdisj : ∀ c' ∈ rest, c.domain ∉ getAllNames c' := by
          intro c' hc'
          exact (List.pairwise_cons.mp hpair).1 c' hc' c.domain hdomain_mem
        have hframe : getHost ext' c.domain = getHost ext1 c.domain := by
          have h2 := syncCertificates_frame tp rest ext1 ups1 c.domain hdisj
          rw [hrun] at h2
          exact h2
        have hhead := syncNames_rerun tp c hc.1 hc.2 ext ext1 ext' ups ups1 ups2
          hrun1 hframe
        simp only [syncCertificates, hhead]
        exact ih ext1 ext' ups1 ups' ups2 (fun c' h => hinv c' (by simp [h]))
          (List.pairwise_cons.mp hpair).2 hrun

/-- Master characterisation of the grouping loop, generalised over the
accumulator map: when every input has a registrable domain, the loop
succeeds; final keys are the initial keys plus the registrable domains of
the inputs; key nodup-ness is preserved; and a final group holds its
initial members plus exactly the inputs whose registrable domain is the
key and which differ from it. -/
theorem groupDomains_spec (etld : String → Option String) :
    ∀ (ds : List String) (m : GroupMap),
      (∀ d ∈ ds, (etld d).isSome) →
      ∃ m', groupDomains etld ds m = some m' ∧
        (∀ k, (mapLookup m' k).isSome ↔
          ((mapLookup m k).isSome ∨ ∃ d ∈ ds, etld d = some k)) ∧
        ((m.map Prod.fst).Nodup → (m'.map Prod.fst).Nodup) ∧
        (∀ k g', mapLookup m' k = some g' →
          ∀ x, x ∈ g' ↔
            ((∃ g, mapLookup m k = some g ∧ x ∈ g) ∨
             (x ∈ ds ∧ etld x = some k ∧ x ≠ k))) := by
  intro ds
  induction ds with
  | nil =>
    intro m _
    refine ⟨m, rfl, by simp, id, ?_⟩
    intro k g' hg' x
    simp [hg']
  | cons d rest ih =>
    intro m h
    obtain ⟨reg, hreg⟩ := Option.isSome_iff_exists.mp (h d (by simp))
    have hrest : ∀ d' ∈ rest, (etld d').isSome := fun d' h' => h d' (by simp [h'])
    by_cases hcase : reg = d
    · obtain ⟨m', heq, hkeys, hnodup, hmem⟩ := ih (mapEnsure m reg) hrest
      refine ⟨m', ?_, ?_, ?_, ?_⟩
      · simp only [groupDomains, hreg, if_pos hcase]
        exact heq
      · intro k
        rw [hkeys k]
        by_cases hk : k = reg
        · subst hk
          have h1 : (mapLookup (mapEnsure m k) k).isSome := by
            rw [mapLookup_mapEnsure_self]
            rfl
          have h2 : ∃ d' ∈ d :: rest, etld d' = some k := ⟨d, by simp, hreg⟩
          exact iff_of_true (Or.inl h1) (Or.inr h2)
        · rw [mapLookup_mapEnsure_ne m reg k hk]
          have hsplit : (∃ d' ∈ d :: rest, etld d' = some k) ↔
              (∃ d' ∈ rest, etld d' = some k) := by
            constructor
            · rintro ⟨d', hd', he⟩
              rcases List.mem_cons.mp hd' with rfl | hmem2
              · rw [hreg] at he
                cases he
                exact absurd rfl hk
              · exact ⟨d', hmem2, he⟩
            · rintro ⟨d', hmem2, he⟩
              exact ⟨d', by simp [hmem2], he⟩
          rw [hsplit]
      · intro hm
        exact hnodup (nodup_keys_mapEnsure m reg hm)
      · intro k g' hg' x
        rw [hmem k g' hg' x]
        by_cases hk : k = reg
        · subst hk
          have hcond : (x ∈ d :: rest ∧ etld x = some k ∧ x ≠ k) ↔
              (x ∈ rest ∧ etld x = some k ∧ x ≠ k) := by
            constructor
            · rintro ⟨hx, he, hne⟩
              rcases List.mem_cons.mp hx with rfl | hx2
              · exact absurd hcase.symm (by simpa using hne)
              · exact ⟨hx2, he, hne⟩
            · rintro ⟨hx, he, hne⟩
              exact ⟨by simp [hx], he, hne⟩
          rw [hcond, mapLookup_mapEnsure_self]
          cases hLm : mapLookup m k with
          | none => simp
          | some g0 => simp
        · have hcond : (x ∈ d :: rest ∧ etld x = some k ∧ x ≠ k) ↔
              (x ∈ rest ∧ etld x = some k ∧ x ≠ k) := by
            constructor
            · rintro ⟨hx, he, hne⟩
              rcases List.mem_cons.mp hx with rfl | hx2
              · rw [hreg] at he
                cases he
                exact absurd rfl hk
              · exact ⟨hx2, he, hne⟩
            · rintro ⟨hx, he, hne⟩
              exact ⟨by simp [hx], he, hne⟩
          rw [hcond, mapLookup_mapEnsure_ne m reg k hk]
    · obtain ⟨m', heq, hkeys, hnodup, hmem⟩ := ih (mapAppend m reg d) hrest
      refine ⟨m', ?_, ?_, ?_, ?_⟩
      · simp only [groupDomains, hreg, if_neg hcase]
        exact heq
      · intro k
        rw [hkeys k]
        by_cases hk : k = reg
        · subst hk
          have h1 : (mapLookup (mapAppend m k d) k).isSome := by
            rw [mapLookup_mapAppend_self]
            rfl
          have h2 : ∃ d' ∈ d :: rest, etld d' = some k := ⟨d, by simp, hreg⟩
          exact iff_of_true (Or.inl h1) (Or.inr h2)
        · rw [mapLookup_mapAppend_ne m reg d k hk]
          have hsplit : (∃ d' ∈ d :: rest, etld d' = some k) ↔
              (∃ d' ∈ rest, etld d' = some k) := by
            constructor
            · rintro ⟨d', hd', he⟩
              rcases List.mem_cons.mp hd' with rfl | hmem2
              · rw [hreg] at he
                cases he
                exact absurd rfl hk
              · exact ⟨d', hmem2, he⟩
            · rintro ⟨d', hmem2, he⟩
              exact ⟨d', by simp [hmem2], he⟩
          rw [hsplit]
      · intro hm
        exact hnodup (nodup_keys_mapAppend m reg d hm)
      · intro k g' hg' x
        rw [hmem k g' hg' x]
        by_cases hk : k = reg
        · subst hk
          rw [mapLookup_mapAppend_self]
          have hxd : x = d → (x ∈ d :: rest ∧ etld x = some k ∧ x ≠ k) := by
            rintro rfl
            exact ⟨by simp, hreg, fun hh => hcase hh.symm⟩
          cases hLm : mapLookup m k with
          | none =>
            simp only [Option.getD_none, List.nil_append]
            constructor
            · rintro (⟨g, hg, hx⟩ | ⟨hx, he, hne⟩)
              · cases hg
                rcases List.mem_singleton.mp hx with rfl
                exact Or.inr (hxd rfl)
              · exact Or.inr ⟨by simp [hx], he, hne⟩
            · rintro (⟨g, hg, hx⟩ | ⟨hx, he, hne⟩)
              · cases hg
              · rcases List.mem_cons.mp hx with hxe | hx2
                · exact Or.inl ⟨[d], rfl, by simp [hxe]⟩
                · exact Or.inr ⟨hx2, he, hne⟩
          | some g0 =>
            simp only [Option.getD_some]
            constructor
            · rintro (⟨g, hg, hx⟩ | ⟨hx, he, hne⟩)
              · cases hg
                rcases List.mem_append.mp hx with hx2 | hx2
                · exact Or.inl ⟨g0, rfl, hx2⟩
                · rcases List.mem_singleton.mp hx2 with rfl
                  exact Or.inr (hxd rfl)
              · exact Or.inr ⟨by simp [hx], he, hne⟩
            · rintro (⟨g, hg, hx⟩ | ⟨hx, he, hne⟩)
              · cases hg
                exact Or.inl ⟨g0 ++ [d], rfl, by simp [hx]⟩
              · rcases List.mem_cons.mp hx with hxe | hx2
                · exact Or.inl ⟨g0 ++ [d], rfl, by simp [hxe]⟩
                · exact Or.inr ⟨hx2, he, hne⟩
        · have hcond : (x ∈ d :: rest ∧ etld x = some k ∧ x ≠ k) ↔
              (x ∈ rest ∧ etld x = some k ∧ x ≠ k) := by
            constructor
            · rintro ⟨hx, he, hne⟩
              rcases List.mem_cons.mp hx with rfl | hx2
              · rw [hreg] at he
                cases he
                exact absurd rfl hk
              · exact ⟨hx2, he, hne⟩
            · rintro ⟨hx, he, hne⟩
              exact ⟨by simp [hx], he, hne⟩
          rw [hcond, mapLookup_mapAppend_ne m reg d k hk]

/-- Expected log of a run of the watch loop: the errors of the failing
ticks, in order. -/
def tickErrors (tick : Nat → Except String Unit) : Nat → Nat → List String
  | _, 0 => []
  | k, Nat.succ f =>
    match tick k with
    | Except.error e => e :: tickErrors tick (k + 1) f
    | Except.ok _ => tickErrors tick (k + 1) f

/-! ## Claim theorems -/

/-- C1: certificate grouping produces exactly one group per distinct
registrable domain of the inputs; an input equal to its own registrable
domain becomes the group's primary Domain and contributes no SAN entry;
every other input appears as a SAN entry of its registrable domain's
group.  In particular `["a.example.com","b.example.com","example.com"]`
yields the single group
`{Domain: "example.com", AlternativeNames: {"a.example.com","b.example.com"}}`. -/
theorem newCertificate_grouping :
    (∀ (etld : String → Option String) (ds : List String),
      (∀ d ∈ ds, (etld d).isSome) →
      ∃ m, groupDomains etld ds [] = some m ∧
        (∀ k, (mapLookup m k).isSome ↔ ∃ d ∈ ds, etld d = some k) ∧
        (m.map Prod.fst).Nodup ∧
        (∀ k g, mapLookup m k = some g →
          ∀ x, x ∈ g ↔ (x ∈ ds ∧ etld x = some k ∧ x ≠ k))) ∧
    groupDomains etldPlusOneCom
        ["a.example.com", "b.example.com", "example.com"] []
      = some [("example.com", ["a.example.com", "b.example.com"])] := by
  constructor
  · intro etld ds h
    obtain ⟨m, heq, hkeys, hnodup, hmem⟩ := groupDomains_spec etld ds [] h
    refine ⟨m, heq, ?_, hnodup (by simp), ?_⟩
    · intro k
      rw [hkeys k]
      simp [mapLookup]
    · intro k g hg x
      rw [hmem k g hg x]
      simp [mapLookup]
  · rfl

/-- Witness for C1: the general grouping theorem applied to the concrete
scenario input under the `com` public-suffix function. -/
theorem newCertificate_grouping_witness :
    ∃ m, groupDomains etldPlusOneCom
        ["a.example.com", "b.example.com", "example.com"] [] = some m ∧
      (∀ k, (mapLookup m k).isSome ↔
        ∃ d ∈ ["a.example.com", "b.example.com", "example.com"],
          etldPlusOneCom d = some k) ∧
      (m.map Prod.fst).Nodup ∧
      (∀ k g, mapLookup m k = some g →
        ∀ x, x ∈ g ↔
          (x ∈ ["a.example.com", "b.example.com", "example.com"] ∧
            etldPlusOneCom x = some k ∧ x ≠ k)) :=
  newCertificate_grouping.1 etldPlusOneCom
    ["a.example.com", "b.example.com", "example.com"] (by decide)

/-- Inputs of C2's failing scenario: a certificate for `example.com` with
SAN `a.example.com`, and an external system that already matches for
`example.com` but has no entry at all for `a.example.com`. -/
def certC2 : StoreCertificate :=
  { domain := "example.com"
    alternativeNames := ["a.example.com"]
    expires := 0
    certificateChain := ["leafraw"]
    privateKey := "key"
    thumbprint := "leafraw" }

def extC2 : Ext :=
  [("example.com",
    { domain := "example.com"
      certificatePEM := ["leafraw"]
      privateKeyPEM := "key" })]

/-- C2: evaluation of the reconciler at the failing input (thumbprints
modelled by the identity digest).  The first name `example.com` matches,
and the Go `return nil` ends the call with zero upserts, although the
remaining name `a.example.com` has no external entry; the claim instead
requires the loop to proceed to `a.example.com` and upsert it. -/
theorem sync_match_skips_remaining_names :
    getHost extC2 "a.example.com" = none ∧
    syncCertificate (fun s => s) certC2 extC2 = (extC2, [], none) ∧
    getHost (syncCertificate (fun s => s) certC2 extC2).1 "a.example.com"
      = none := by
  exact ⟨rfl, rfl, rfl⟩

/-- C3: the completion loop inside `Authorize` makes exactly 5 attempts
when all fail, sleeping i×300ms after failed attempts i = 1..4 (300, 600,
900, 1200 ms) and returning the 5th attempt's error verbatim; a successful
attempt k ends the loop at k attempts with only the k−1 earlier sleeps. -/
theorem completeAuthorize_retry_spec :
    (∀ (attempt : Nat → Except String Unit) (e : Nat → String),
      (∀ i, 1 ≤ i → i ≤ 5 → attempt i = Except.error (e i)) →
      completeAuthorizeLoop attempt
        = (5, [300, 600, 900, 1200], Except.error (e 5))) ∧
    (∀ (attempt : Nat → Except String Unit) (e : Nat → String) (k : Nat),
      1 ≤ k → k ≤ 5 → attempt k = Except.ok () →
      (∀ j, 1 ≤ j → j < k → attempt j = Except.error (e j)) →
      completeAuthorizeLoop attempt
        = (k, (List.range (k - 1)).map (fun j => (j + 1) * 300),
            Except.ok ())) := by
  constructor
  · intro attempt e h
    have h1 := h 1 (by omega) (by omega)
    have h2 := h 2 (by omega) (by omega)
    have h3 := h 3 (by omega) (by omega)
    have h4 := h 4 (by omega) (by omega)
    have h5 := h 5 (by omega) (by omega)
    simp [completeAuthorizeLoop, authRetries, retryLoop, h1, h2, h3, h4, h5,
      backoffMs]
  · intro attempt e k hk1 hk5 hok hfail
    interval_cases k
    · simp [completeAuthorizeLoop, authRetries, retryLoop, hok, backoffMs]
    · have h1 := hfail 1 (by omega) (by omega)
      simp [completeAuthorizeLoop, authRetries, retryLoop, h1, hok, backoffMs]
      decide
    · have h1 := hfail 1 (by omega) (by omega)
      have h2 := hfail 2 (by omega) (by omega)
      simp [completeAuthorizeLoop, authRetries, retryLoop, h1, h2, hok,
        backoffMs]
      decide
    · have h1 := hfail 1 (by omega) (by omega)
      have h2 := hfail 2 (by omega) (by omega)
      have h3 := hfail 3 (by omega) (by omega)
      simp [completeAuthorizeLoop, authRetries, retryLoop, h1, h2, h3, hok,
        backoffMs]
      decide
    · have h1 := hfail 1 (by omega) (by omega)
      have h2 := hfail 2 (by omega) (by omega)
      have h3 := hfail 3 (by omega) (by omega)
      have h4 := hfail 4 (by omega) (by omega)
      simp [completeAuthorizeLoop, authRetries, retryLoop, h1, h2, h3, h4, hok,
        backoffMs]
      decide

/-- Witness for C3: a permanently failing attempt function and one that
succeeds on the third attempt. -/
theorem completeAuthorize_retry_witness :
    completeAuthorizeLoop (fun _ => Except.error "boom")
      = (5, [300, 600, 900, 1200], Except.error "boom") ∧
    completeAuthorizeLoop
        (fun i => if i = 3 then Except.ok () else Except.error "boom")
      = (3, [300, 600], Except.ok ()) := by
  constructor
  · exact completeAuthorize_retry_spec.1 (fun _ => Except.error "boom")
      (fun _ => "boom") (fun i _ _ => rfl)
  · have h := completeAuthorize_retry_spec.2
      (fun i => if i = 3 then Except.ok () else Except.error "boom")
      (fun _ => "boom") 3 (by omega) (by omega) rfl
      (by intro j h1 h2; interval_cases j <;> rfl)
    simpa using h

/-- C4: the SAN-set merge `uniqueStrings` is commutative and
duplicate-free as a set operation, and merging stored
`{"a.example.com"}` with the new request `{"c.example.com"}` yields
exactly the set `{"a.example.com","c.example.com"}`. -/
theorem uniqueStrings_merge_spec :
    (∀ A B : List String, ∀ x,
      x ∈ uniqueStrings [A, B] ↔ x ∈ uniqueStrings [B, A]) ∧
    (∀ src : List (List String), (uniqueStrings src).Nodup) ∧
    (∀ x, x ∈ uniqueStrings [["c.example.com"], ["a.example.com"]] ↔
      (x = "a.example.com" ∨ x = "c.example.com")) := by
  refine ⟨?_, nodup_uniqueStrings, ?_⟩
  · intro A B x
    rw [mem_uniqueStrings, mem_uniqueStrings]
    constructor
    · rintro ⟨l, hl, hx⟩
      simp only [List.mem_cons, List.not_mem_nil, or_false] at hl
      rcases hl with rfl | rfl
      · exact ⟨l, by simp, hx⟩
      · exact ⟨l, by simp, hx⟩
    · rintro ⟨l, hl, hx⟩
      simp only [List.mem_cons, List.not_mem_nil, or_false] at hl
      rcases hl with rfl | rfl
      · exact ⟨l, by simp, hx⟩
      · exact ⟨l, by simp, hx⟩
  · intro x
    rw [mem_uniqueStrings]
    constructor
    · rintro ⟨l, hl, hx⟩
      simp only [List.mem_cons, List.not_mem_nil, or_false] at hl
      rcases hl with rfl | rfl
      · exact Or.inr (by simpa using hx)
      · exact Or.inl (by simpa using hx)
    · rintro (rfl | rfl)
      · exact ⟨["a.example.com"], by simp, by simp⟩
      · exact ⟨["c.example.com"], by simp, by simp⟩

/-- Certificate of C5's concrete scenario: expires 3 days after `now = 0`
(timestamps in seconds). -/
def certC5 : StoreCertificate :=
  { domain := "example.com"
    alternativeNames := ["a.example.com"]
    expires := 3 * 86400
    certificateChain := ["leafraw"]
    privateKey := "key"
    thumbprint := "tp" }

/-- C5: `RenewExpiringCertificates` selects exactly the stored
certificates with `Expires < now + before` and re-issues each with its
Domain plus all of its AlternativeNames; a certificate expiring in 3 days
is selected at threshold 7 days and not at threshold 1 day. -/
theorem renewExpiring_selection_spec :
    (∀ (now before : Int) (certs : List StoreCertificate)
        (c : StoreCertificate),
      c ∈ renewSelection now before certs ↔
        c ∈ certs ∧ c.expires < now + before) ∧
    (∀ c : StoreCertificate, ∀ x,
      x ∈ renewDomains c ↔ x = c.domain ∨ x ∈ c.alternativeNames) ∧
    renewExpiringCalls 0 (7 * 86400) [certC5]
      = [["a.example.com", "example.com"]] ∧
    renewExpiringCalls 0 (1 * 86400) [certC5] = [] := by
  refine ⟨?_, ?_, by decide, by decide⟩
  · intro now before certs c
    simp [renewSelection, List.mem_filter]
  · intro c x
    simp [renewDomains, or_comm]

/-- C6 counterexample: a tick error makes `RenewLoop` return that error —
the loop terminates because a tick failed, contrary to the claim. -/
theorem renewLoop_returns_on_tick_error :
    renewLoop (fun _ => Except.error "tick failed") 0 1
      = some "tick failed" := rfl

/-- C6 amended: the watch command's renewal loop logs each failing tick's
error and continues to the next period — for every outcome sequence it
runs through all observed periods and accumulates exactly the failures —
while the `Coyote.RenewLoop` method instead returns the first failing
tick's error. -/
theorem renewal_loops_amended :
    (∀ (tick : Nat → Except String Unit) (fuel k : Nat) (logs : List String),
      watchLoop tick k fuel logs = logs ++ tickErrors tick k fuel) ∧
    (∀ (tick : Nat → Except String Unit) (k fuel : Nat) (e : String),
      tick k = Except.error e → renewLoop tick k (fuel + 1) = some e) := by
  constructor
  · intro tick fuel
    induction fuel with
    | zero => intro k logs; simp [watchLoop, tickErrors]
    | succ f ih =>
      intro k logs
      cases htick : tick k with
      | error e => simp [watchLoop, tickErrors, htick, ih]
      | ok u => simp [watchLoop, tickErrors, htick, ih]
  · intro tick k fuel e htick
    simp [renewLoop, htick]

/-- Witness for C6's amended claim: two failing ticks are both logged and
the watch loop keeps going, while `renewLoop` stops at the first. -/
theorem renewal_loops_amended_witness :
    watchLoop (fun _ => Except.error "boom") 0 2 []
      = [] ++ tickErrors (fun _ => Except.error "boom") 0 2 ∧
    renewLoop (fun _ => Except.error "boom") 0 1 = some "boom" :=
  ⟨renewal_loops_amended.1 (fun _ => Except.error "boom") 2 0 [],
   renewal_loops_amended.2 (fun _ => Except.error "boom") 0 0 "boom" rfl⟩

/-- Backend contents after `PutChallenge("tok123","resp-value")` against
prefix `coyote`. -/
def kvC7 : KV := [("coyote/challenges/tok123", "resp-value")]

/-- C7: evaluation at the claim's scenario.  Put-then-Get returns the
stored challenge, and `DeleteChallenge("tok123")` succeeds — but it
deletes the bare key `tok123` rather than `coyote/challenges/tok123`, so
the store is unchanged and a subsequent `GetChallenge` still returns the
stored value instead of not-found. -/
theorem deleteChallenge_leaves_challenge :
    putChallenge "coyote" [] { key := "tok123", value := "resp-value" }
      = Except.ok kvC7 ∧
    getChallenge "coyote" kvC7 "tok123"
      = some { key := "tok123", value := "resp-value" } ∧
    deleteChallenge "coyote" kvC7 "tok123" = Except.ok kvC7 ∧
    getChallenge "coyote" kvC7 "tok123" ≠ none := by
  refine ⟨rfl, rfl, rfl, by decide⟩

/-- C8: a matching external host receives zero upserts, and re-running
reconciliation on the state of a fully successful run performs zero
upserts, given the data-model invariants (non-empty chains whose leaf
thumbprint is the stored Thumbprint, and per-certificate name sets
disjoint). -/
theorem reconcile_idempotent :
    (∀ (tp : String → String) (cert : StoreCertificate) (ext : Ext)
        (name : String) (h : Host) (bundle : List String),
      getHost ext name = some h →
      decodeCertificates h = Except.ok bundle →
      tp (bundle.headD "") = cert.thumbprint →
      ∀ u ∈ (syncCertificate tp cert ext).2.1, u.domain ≠ name) ∧
    (∀ (tp : String → String) (certs : List StoreCertificate) (ext ext' : Ext)
        (ups' : List Host),
      (∀ c ∈ certs, c.certificateChain ≠ [] ∧
        tp (c.certificateChain.headD "") = c.thumbprint) →
      List.Pairwise (fun a b => ∀ n ∈ getAllNames a, n ∉ getAllNames b)
        certs →
      syncCertificates tp certs ext [] = (ext', ups', none) →
      syncCertificates tp certs ext' [] = (ext', [], none)) := by
  constructor
  · intro tp cert ext name h bundle hg hdec htp u hu
    rcases syncNames_no_upsert_of_match tp cert name h bundle hdec htp
      (getAllNames cert) ext [] hg u hu with h2 | h2
    · exact absurd h2 (List.not_mem_nil u)
    · exact h2
  · intro tp certs ext ext' ups' hinv hpair hrun
    exact syncCertificates_rerun tp certs ext ext' [] ups' [] hinv hpair hrun

/-- Certificate and post-run external state of C8's witness scenario. -/
def certC8 : StoreCertificate :=
  { domain := "example.com"
    alternativeNames := []
    expires := 0
    certificateChain := ["leafraw"]
    privateKey := "key"
    thumbprint := "leafraw" }

def extC8 : Ext :=
  [("example.com",
    { domain := "example.com"
      certificatePEM := ["leafraw"]
      privateKeyPEM := "key" })]

/-- Witness for C8: a first run against an empty external system upserts
the host; the re-run against the produced state performs zero upserts. -/
theorem reconcile_idempotent_witness :
    syncCertificates (fun s => s) [certC8] [] []
      = (extC8,
          [{ domain := "example.com", certificatePEM := ["leafraw"],
             privateKeyPEM := "key" }], none) ∧
    syncCertificates (fun s => s) [certC8] extC8 [] = (extC8, [], none) := by
  constructor
  · rfl
  · exact reconcile_idempotent.2 (fun s => s) [certC8] [] extC8
      [{ domain := "example.com", certificatePEM := ["leafraw"],
         privateKeyPEM := "key" }]
      (by decide) (by simp) rfl

/-- C9: when `BeginAuthorize` reports no challenge needed (nil challenge,
nil error), `Authorize` dereferences the nil challenge pointer — a runtime
panic, not the success the claim requires. -/
theorem authorize_nil_challenge_panics :
    (∀ attempt : Nat → Except String Unit,
      authorize (Except.ok none) attempt = AuthOutcome.nilPanic) ∧
    AuthOutcome.nilPanic ≠ AuthOutcome.ok := by
  exact ⟨fun attempt => rfl, by decide⟩

/-- C10: a request whose path matches the challenge pattern but whose
token has no stored challenge (store miss, nil error) drives the handler
into the nil-challenge dereference — a panic, not an HTTP response. -/
theorem challengeHandler_missing_challenge_panics :
    matchChallengePath ".well-known/acme-challenge"
        "/.well-known/acme-challenge/tok404" = some "tok404" ∧
    getChallenge "coyote" [] "tok404" = none ∧
    challengeHandler ".well-known/acme-challenge" "coyote" []
        "/.well-known/acme-challenge/tok404" = (HandlerResult.panics, []) ∧
    (∀ r : HTTPResponse, HandlerResult.panics ≠ HandlerResult.respond r) := by
  refine ⟨by decide, rfl, by decide, ?_⟩
  intro r h
  exact HandlerResult.noConfusion h

end Coyote
